import Mathlib

/-!
Verification of the lix change-control engine specification against the
repository sources.  Pure embeddings of the relevant program parts are
defined first (change-graph reachability, the CSV plugin, the snapshot
store, the version/branch switch model, the constraint-checked store),
followed by one theorem per specification claim.
-/

namespace Lix

/-! ## Change graph rows

Embedding of the table row shapes used by `change-in-branch.ts`
(`change_set_element` and `change_edge` of the database schema). -/

structure ChangeSetElement where
  change_set_id : String
  change_id : String
deriving DecidableEq, Repr

structure ChangeEdge where
  parent_id : String
  child_id : String
deriving DecidableEq, Repr

/-! ## Generic worklist closure

The recursive CTE in `change-in-branch.ts` computes the least set of ids
containing a base set and closed under one step of a binary relation.
We embed that semantics as an executable worklist iteration:
`relStep` performs one CTE expansion round, `relIter` iterates it to a
fixpoint, and the fuel chosen in `relClosure` is proved sufficient. -/

def addNew (s : List String) (xs : List String) : List String :=
  xs.foldl (fun acc x => if x ∈ acc then acc else acc ++ [x]) s

def relStep (rel : List (String × String)) (s : List String) : List String :=
  addNew s (rel.filterMap fun p => if p.1 ∈ s then some p.2 else none)

def relIter (rel : List (String × String)) : Nat → List String → List String
  | 0, s => s
  | n + 1, s =>
    let s' := relStep rel s
    if s' = s then s else relIter rel n s'

def relClosure (rel : List (String × String)) (base : List String) : List String :=
  relIter rel ((base ++ rel.map Prod.snd).dedup).length base.dedup

/-- Inductive characterisation of the CTE's least fixpoint: an id is in the
closure iff it is in the base set or reachable from it by steps of `rel`. -/
inductive ReachesFrom (rel : List (String × String)) (base : List String) : String → Prop
  | base {x} : x ∈ base → ReachesFrom rel base x
  | step {x y} : ReachesFrom rel base x → (x, y) ∈ rel → ReachesFrom rel base y

theorem addNew_eq_append (xs : List String) (s : List String) :
    ∃ t, addNew s xs = s ++ t := by
  induction xs generalizing s with
  | nil => exact ⟨[], by simp [addNew]⟩
  | cons x xs ih =>
    show ∃ t, addNew (if x ∈ s then s else s ++ [x]) xs = s ++ t
    by_cases hx : x ∈ s
    · simpa [hx] using ih s
    · obtain ⟨t, ht⟩ := ih (s ++ [x])
      exact ⟨x :: t, by simp [hx, ht]⟩

theorem mem_addNew_left {a : String} {s : List String} (xs : List String)
    (h : a ∈ s) : a ∈ addNew s xs := by
  obtain ⟨t, ht⟩ := addNew_eq_append xs s
  rw [ht]; exact List.mem_append_left _ h

theorem mem_addNew_right {a : String} {s : List String} {xs : List String}
    (h : a ∈ xs) : a ∈ addNew s xs := by
  induction xs generalizing s with
  | nil => cases h
  | cons x xs ih =>
    rcases List.mem_cons.mp h with rfl | h
    · show a ∈ addNew (if a ∈ s then s else s ++ [a]) xs
      by_cases hx : a ∈ s
      · simp only [hx, if_true]; exact mem_addNew_left xs hx
      · simp only [hx, if_false]; exact mem_addNew_left xs (by simp)
    · exact ih h

theorem mem_addNew {a : String} {s xs : List String}
    (h : a ∈ addNew s xs) : a ∈ s ∨ a ∈ xs := by
  induction xs generalizing s with
  | nil => exact Or.inl h
  | cons x xs ih =>
    have h' : a ∈ addNew (if x ∈ s then s else s ++ [x]) xs := h
    rcases ih h' with hm | hm
    · by_cases hx : x ∈ s
      · rw [if_pos hx] at hm; exact Or.inl hm
      · rw [if_neg hx] at hm
        rcases List.mem_append.mp hm with hm | hm
        · exact Or.inl hm
        · right
          simp at hm
          simp [hm]
    · exact Or.inr (List.mem_cons_of_mem _ hm)

theorem addNew_nodup {s : List String} (xs : List String) (h : s.Nodup) :
    (addNew s xs).Nodup := by
  induction xs generalizing s with
  | nil => exact h
  | cons x xs ih =>
    show (addNew (if x ∈ s then s else s ++ [x]) xs).Nodup
    by_cases hx : x ∈ s
    · rw [if_pos hx]; exact ih h
    · rw [if_neg hx]
      exact ih (by simp [List.nodup_append, h, hx])

theorem addNew_eq_self {s xs : List String} (h : ∀ x ∈ xs, x ∈ s) :
    addNew s xs = s := by
  induction xs generalizing s with
  | nil => rfl
  | cons x xs ih =>
    show addNew (if x ∈ s then s else s ++ [x]) xs = s
    rw [if_pos (h x (by simp))]
    exact ih fun y hy => h y (List.mem_cons_of_mem _ hy)

theorem length_lt_addNew {s xs : List String} (h : addNew s xs ≠ s) :
    s.length < (addNew s xs).length := by
  obtain ⟨t, ht⟩ := addNew_eq_append xs s
  rw [ht]
  rcases t with _ | ⟨y, t⟩
  · simp at ht; exact absurd ht h
  · simp

theorem length_lt_relStep {rel : List (String × String)} {s : List String}
    (h : relStep rel s ≠ s) : s.length < (relStep rel s).length := by
  unfold relStep at h ⊢
  exact length_lt_addNew h

theorem subset_relStep (rel : List (String × String)) (s : List String) :
    ∀ a ∈ s, a ∈ relStep rel s :=
  fun _ ha => mem_addNew_left _ ha

theorem relStep_closed {rel : List (String × String)} {s : List String}
    (h : relStep rel s = s) {p : String × String} (hp : p ∈ rel)
    (h1 : p.1 ∈ s) : p.2 ∈ s := by
  have : p.2 ∈ relStep rel s :=
    mem_addNew_right (List.mem_filterMap.mpr ⟨p, hp, by simp [h1]⟩)
  rwa [h] at this

theorem mem_relStep {rel : List (String × String)} {s : List String} {a : String}
    (h : a ∈ relStep rel s) : a ∈ s ∨ ∃ p ∈ rel, p.1 ∈ s ∧ p.2 = a := by
  rcases mem_addNew h with hm | hm
  · exact Or.inl hm
  · obtain ⟨p, hp, he⟩ := List.mem_filterMap.mp hm
    by_cases h1 : p.1 ∈ s
    · exact Or.inr ⟨p, hp, h1, by simpa [h1] using he⟩
    · simp [h1] at he

theorem relStep_subset_universe {rel : List (String × String)} {s u : List String}
    (hs : ∀ a ∈ s, a ∈ u) (hu : ∀ p ∈ rel, p.2 ∈ u) :
    ∀ a ∈ relStep rel s, a ∈ u := by
  intro a ha
  rcases mem_relStep ha with hm | ⟨p, hp, _, rfl⟩
  · exact hs a hm
  · exact hu p hp

theorem subset_relIter (rel : List (String × String)) (n : Nat) (s : List String) :
    ∀ a ∈ s, a ∈ relIter rel n s := by
  induction n generalizing s with
  | zero => intro a ha; exact ha
  | succ n ih =>
    intro a ha
    show a ∈ (if relStep rel s = s then s else relIter rel n (relStep rel s))
    by_cases hf : relStep rel s = s
    · rw [if_pos hf]; exact ha
    · rw [if_neg hf]; exact ih _ a (subset_relStep rel s a ha)

theorem relIter_sound {rel : List (String × String)} {R : String → Prop}
    (hstep : ∀ x y, R x → (x, y) ∈ rel → R y) :
    ∀ (n : Nat) (s : List String), (∀ a ∈ s, R a) → ∀ a ∈ relIter rel n s, R a := by
  intro n
  induction n with
  | zero => intro s hs a ha; exact hs a ha
  | succ n ih =>
    intro s hs a ha
    have ha' : a ∈ (if relStep rel s = s then s else relIter rel n (relStep rel s)) := ha
    by_cases hf : relStep rel s = s
    · rw [if_pos hf] at ha'; exact hs a ha'
    · rw [if_neg hf] at ha'
      refine ih (relStep rel s) ?_ a ha'
      intro b hb
      rcases mem_relStep hb with hm | ⟨p, hp, h1, rfl⟩
      · exact hs b hm
      · exact hstep p.1 p.2 (hs _ h1) (by simpa using hp)

theorem list_pigeonhole {s u : List String} (hn : s.Nodup)
    (hsub : ∀ a ∈ s, a ∈ u) (hlen : u.dedup.length ≤ s.length) :
    ∀ a ∈ u, a ∈ s := by
  have hcard : s.toFinset.card = s.length := List.toFinset_card_of_nodup hn
  have hsub' : s.toFinset ⊆ u.toFinset := by
    intro a ha
    exact List.mem_toFinset.mpr (hsub a (List.mem_toFinset.mp ha))
  have hucard : u.toFinset.card = u.dedup.length := List.card_toFinset u
  have hle : u.toFinset.card ≤ s.toFinset.card := by omega
  have heq : s.toFinset = u.toFinset := Finset.eq_of_subset_of_card_le hsub' hle
  intro a ha
  have : a ∈ u.toFinset := List.mem_toFinset.mpr ha
  rw [← heq] at this
  exact List.mem_toFinset.mp this

theorem relIter_fix {rel : List (String × String)} {u : List String}
    (hu : ∀ p ∈ rel, p.2 ∈ u) :
    ∀ (n : Nat) (s : List String), s.Nodup → (∀ a ∈ s, a ∈ u) →
      u.dedup.length ≤ n + s.length →
      relStep rel (relIter rel n s) = relIter rel n s := by
  intro n
  induction n with
  | zero =>
    intro s hn hsub hlen
    show relStep rel s = s
    have hall : ∀ a ∈ u, a ∈ s := list_pigeonhole hn hsub (by omega)
    exact addNew_eq_self (by
      intro x hx
      obtain ⟨p, hp, he⟩ := List.mem_filterMap.mp hx
      by_cases h1 : p.1 ∈ s
      · simp [h1] at he; subst he; exact hall _ (hu p hp)
      · simp [h1] at he)
  | succ n ih =>
    intro s hn hsub hlen
    show relStep rel (if relStep rel s = s then s else relIter rel n (relStep rel s)) =
      (if relStep rel s = s then s else relIter rel n (relStep rel s))
    by_cases hf : relStep rel s = s
    · rw [if_pos hf, hf]
    · rw [if_neg hf]
      refine ih (relStep rel s) (addNew_nodup _ hn)
        (relStep_subset_universe hsub hu) ?_
      have := length_lt_relStep hf
      omega

theorem relClosure_closed (rel : List (String × String)) (base : List String) :
    relStep rel (relClosure rel base) = relClosure rel base := by
  apply relIter_fix (u := base ++ rel.map Prod.snd)
  · intro p hp
    exact List.mem_append_right _ (List.mem_map.mpr ⟨p, hp, rfl⟩)
  · exact base.nodup_dedup
  · intro a ha
    exact List.mem_append_left _ (List.mem_dedup.mp ha)
  · have : base.dedup.length ≤ base.length := by
      simpa using List.Sublist.length_le (List.dedup_sublist base)
    omega

theorem mem_relClosure_iff (rel : List (String × String)) (base : List String)
    (a : String) : a ∈ relClosure rel base ↔ ReachesFrom rel base a := by
  constructor
  · intro h
    refine relIter_sound (R := ReachesFrom rel base)
      (fun x y hx hxy => ReachesFrom.step hx hxy) _ _ ?_ a h
    intro b hb
    exact ReachesFrom.base (List.mem_dedup.mp hb)
  · intro h
    induction h with
    | base hx =>
      exact subset_relIter _ _ _ _ (List.mem_dedup.mpr hx)
    | step _ hxy ih =>
      rename_i x y _
      have hc := relClosure_closed rel base
      have : y ∈ relStep rel (relClosure rel base) :=
        mem_addNew_right (List.mem_filterMap.mpr ⟨(x, y), hxy, by simp [ih]⟩)
      rwa [hc] at this

end Lix

namespace Lix

/-! ## Paths along the change graph -/

/-- Generic nonempty path through a step relation given as a pair list. -/
inductive RelPath (rel : List (String × String)) : String → String → Prop
  | single {x y} : (x, y) ∈ rel → RelPath rel x y
  | tail {x y z} : RelPath rel x y → (y, z) ∈ rel → RelPath rel x z

theorem reachesFrom_iff_relPath (rel : List (String × String)) (base : List String)
    (x : String) :
    ReachesFrom rel base x ↔ x ∈ base ∨ ∃ m ∈ base, RelPath rel m x := by
  constructor
  · intro h
    induction h with
    | base hx => exact Or.inl hx
    | step _ hxy ih =>
      rcases ih with hx | ⟨m, hm, hp⟩
      · exact Or.inr ⟨_, hx, RelPath.single hxy⟩
      · exact Or.inr ⟨m, hm, RelPath.tail hp hxy⟩
  · rintro (hx | ⟨m, hm, hp⟩)
    · exact ReachesFrom.base hx
    · induction hp with
      | single hxy => exact ReachesFrom.step (ReachesFrom.base hm) hxy
      | tail _ hyz ih => exact ReachesFrom.step ih hyz

/-- The change `anc` is an ancestor of the change `c`: it is reachable from `c`
by walking parent edges (one or more `ChangeEdge` rows child-to-parent). -/
inductive AncestorOf (edges : List ChangeEdge) : String → String → Prop
  | single {c p} : ChangeEdge.mk p c ∈ edges → AncestorOf edges c p
  | tail {c m p} : AncestorOf edges c m → ChangeEdge.mk p m ∈ edges → AncestorOf edges c p

theorem relPath_map_iff_ancestorOf (edges : List ChangeEdge) (x y : String) :
    RelPath (edges.map fun e => (e.child_id, e.parent_id)) x y ↔ AncestorOf edges x y := by
  constructor
  · intro h
    induction h with
    | single hxy =>
      obtain ⟨e, he, heq⟩ := List.mem_map.mp hxy
      cases e
      simp only [Prod.mk.injEq] at heq
      obtain ⟨h1, h2⟩ := heq
      subst h1; subst h2
      exact AncestorOf.single he
    | tail _ hyz ih =>
      obtain ⟨e, he, heq⟩ := List.mem_map.mp hyz
      cases e
      simp only [Prod.mk.injEq] at heq
      obtain ⟨h1, h2⟩ := heq
      subst h1; subst h2
      exact AncestorOf.tail ih he
  · intro h
    induction h with
    | single he => exact RelPath.single (List.mem_map.mpr ⟨_, he, rfl⟩)
    | tail _ he ih => exact RelPath.tail ih (List.mem_map.mpr ⟨_, he, rfl⟩)

/-! ## Embedding of `changeInBranch` (change-in-branch.ts, lines 16-35)

The recursive CTE

    WITH RECURSIVE recursive_changes(id) AS (
      SELECT change_id AS id FROM change_set_element
      WHERE change_set_id = <branch.change_set_id>
      UNION ALL
      SELECT change_edge.parent_id AS id FROM change_edge
      INNER JOIN recursive_changes ON recursive_changes.id = change_edge.child_id
    )

computes the least set containing the change-set members and closed under
adding `parent_id` for every edge whose `child_id` is in the set.  The base
query is embedded as a filter over the `change_set_element` rows and the
recursive term as the step relation (child_id, parent_id). -/

def recursiveChanges (elements : List ChangeSetElement) (edges : List ChangeEdge)
    (changeSetId : String) : List String :=
  relClosure (edges.map fun e => (e.child_id, e.parent_id))
    ((elements.filter fun el => el.change_set_id = changeSetId).map
      ChangeSetElement.change_id)

/-- Embedding of the filter `changeInBranch`: the change id is IN the
recursive CTE's result set. -/
def changeInBranch (elements : List ChangeSetElement) (edges : List ChangeEdge)
    (branchChangeSetId : String) (changeId : String) : Bool :=
  decide (changeId ∈ recursiveChanges elements edges branchChangeSetId)

theorem mem_recursiveChanges_base (elements : List ChangeSetElement)
    (csId : String) (x : String) :
    (x ∈ (elements.filter fun el => el.change_set_id = csId).map
        ChangeSetElement.change_id) ↔
      ∃ el ∈ elements, el.change_set_id = csId ∧ el.change_id = x := by
  simp only [List.mem_map, List.mem_filter, decide_eq_true_eq]
  constructor
  · rintro ⟨el, ⟨hmem, hcs⟩, rfl⟩
    exact ⟨el, hmem, hcs, rfl⟩
  · rintro ⟨el, hmem, hcs, rfl⟩
    exact ⟨el, ⟨hmem, hcs⟩, rfl⟩

/-- C4: `changeInBranch` is the full ancestor-or-member transitive closure —
the filter accepts a change id exactly when it is a member of the branch's
change set, or an ancestor (by a parent-edge walk of arbitrary, unbounded
length) of some member. -/
theorem changeInBranch_iff_ancestor_or_member (elements : List ChangeSetElement)
    (edges : List ChangeEdge) (csId : String) (c : String) :
    changeInBranch elements edges csId c = true ↔
      (∃ el ∈ elements, el.change_set_id = csId ∧ el.change_id = c) ∨
      ∃ m, (∃ el ∈ elements, el.change_set_id = csId ∧ el.change_id = m) ∧
        AncestorOf edges m c := by
  unfold changeInBranch recursiveChanges
  rw [decide_eq_true_iff, mem_relClosure_iff, reachesFrom_iff_relPath]
  rw [mem_recursiveChanges_base]
  constructor
  · rintro (h | ⟨m, hm, hp⟩)
    · exact Or.inl h
    · refine Or.inr ⟨m, ?_, (relPath_map_iff_ancestorOf edges m c).mp hp⟩
      exact (mem_recursiveChanges_base elements csId m).mp hm
  · rintro (h | ⟨m, hm, hp⟩)
    · exact Or.inl h
    · refine Or.inr ⟨m, ?_, (relPath_map_iff_ancestorOf edges m c).mpr hp⟩
      exact (mem_recursiveChanges_base elements csId m).mpr hm

/-! ## Leaf query (C5)

Modelled from the spec: the implementation of `changeIsLeafOf` is not under
`src/` — only its test (`change-in-branch.ts`, second document) is.  Spec
section 4.2: `leafOf(change)` is the change reachable from `change` by
repeatedly following child edges that itself has no further children.  We
model the query as the set of descendant-or-self changes that have no
outgoing child edge. -/

def descendantsOrSelf (edges : List ChangeEdge) (changeId : String) : List String :=
  relClosure (edges.map fun e => (e.parent_id, e.child_id)) [changeId]

def leavesOf (edges : List ChangeEdge) (changeId : String) : List String :=
  (descendantsOrSelf edges changeId).filter fun c =>
    edges.all fun e => e.parent_id ≠ c

theorem mem_leavesOf (edges : List ChangeEdge) (s x : String) :
    x ∈ leavesOf edges s ↔
      ReachesFrom (edges.map fun e => (e.parent_id, e.child_id)) [s] x ∧
        ∀ e ∈ edges, e.parent_id ≠ x := by
  unfold leavesOf descendantsOrSelf
  rw [List.mem_filter, mem_relClosure_iff]
  simp

theorem chain_reaches_a (a b c x : String)
    (h : ReachesFrom [(a, b), (b, c)] [a] x) : x = a ∨ x = b ∨ x = c := by
  induction h with
  | base hx => simp at hx; exact Or.inl hx
  | step _ hxy ih =>
    rcases ih with rfl | rfl | rfl <;> simp at hxy <;> tauto

theorem chain_reaches_b (a b c x : String) (hab : a ≠ b) (hac : a ≠ c)
    (h : ReachesFrom [(a, b), (b, c)] [b] x) : x = b ∨ x = c := by
  induction h with
  | base hx => simp at hx; exact Or.inl hx
  | step _ hxy ih =>
    rcases ih with rfl | rfl <;> simp at hxy <;> tauto

theorem chain_reaches_c (a b c x : String) (hac : a ≠ c) (hbc : b ≠ c)
    (h : ReachesFrom [(a, b), (b, c)] [c] x) : x = c := by
  induction h with
  | base hx => simpa using hx
  | step _ hxy ih => subst ih; simp at hxy; tauto

/-- C5: for a linear chain of changes A→B→C the leaf query started at any
of A, B, C returns exactly C — the unique terminal descendant. -/
theorem leavesOf_linear_chain (a b c x : String)
    (hab : a ≠ b) (hac : a ≠ c) (hbc : b ≠ c) :
    (x ∈ leavesOf [ChangeEdge.mk a b, ChangeEdge.mk b c] a ↔ x = c) ∧
    (x ∈ leavesOf [ChangeEdge.mk a b, ChangeEdge.mk b c] b ↔ x = c) ∧
    (x ∈ leavesOf [ChangeEdge.mk a b, ChangeEdge.mk b c] c ↔ x = c) := by
  have hrel : ([ChangeEdge.mk a b, ChangeEdge.mk b c].map
      fun e => (e.parent_id, e.child_id)) = [(a, b), (b, c)] := by simp
  have hnoChild : (∀ e ∈ [ChangeEdge.mk a b, ChangeEdge.mk b c],
      e.parent_id ≠ c) := by simp [hac, hbc]
  have hreach_c : ∀ s : String, ReachesFrom [(a, b), (b, c)] [s] s :=
    fun s => ReachesFrom.base (by simp)
  have hbc' : ReachesFrom [(a, b), (b, c)] [b] c :=
    ReachesFrom.step (hreach_c b) (by simp)
  have hab2 : ReachesFrom [(a, b), (b, c)] [a] b :=
    ReachesFrom.step (hreach_c a) (by simp)
  have hac' : ReachesFrom [(a, b), (b, c)] [a] c :=
    ReachesFrom.step hab2 (by simp)
  refine ⟨?_, ?_, ?_⟩
  · rw [mem_leavesOf, hrel]
    constructor
    · rintro ⟨hr, hnc⟩
      rcases chain_reaches_a a b c x hr with rfl | rfl | rfl
      · exact absurd rfl (hnc (ChangeEdge.mk x b) (by simp))
      · exact absurd rfl (hnc (ChangeEdge.mk x c) (by simp))
      · rfl
    · rintro rfl; exact ⟨hac', hnoChild⟩
  · rw [mem_leavesOf, hrel]
    constructor
    · rintro ⟨hr, hnc⟩
      rcases chain_reaches_b a b c x hab hac hr with rfl | rfl
      · exact absurd rfl (hnc (ChangeEdge.mk x c) (by simp))
      · rfl
    · rintro rfl; exact ⟨hbc', hnoChild⟩
  · rw [mem_leavesOf, hrel]
    constructor
    · rintro ⟨hr, _⟩
      exact chain_reaches_c a b c x hac hbc hr
    · rintro rfl; exact ⟨hreach_c _, hnoChild⟩

/-- Witness for C5 at the ids of the source test ("1"→"2"→"3"): the leaf of
every chain member is "3" and "1" is not a leaf. -/
theorem leavesOf_linear_chain_witness :
    ("3" ∈ leavesOf [ChangeEdge.mk "1" "2", ChangeEdge.mk "2" "3"] "1") ∧
    ("3" ∈ leavesOf [ChangeEdge.mk "1" "2", ChangeEdge.mk "2" "3"] "2") ∧
    ¬ ("1" ∈ leavesOf [ChangeEdge.mk "1" "2", ChangeEdge.mk "2" "3"] "1") := by
  have h3 := leavesOf_linear_chain "1" "2" "3" (x := "3")
    (by decide) (by decide) (by decide)
  have h1 := leavesOf_linear_chain "1" "2" "3" (x := "1")
    (by decide) (by decide) (by decide)
  refine ⟨h3.1.mpr rfl, h3.2.1.mpr rfl, fun hmem => ?_⟩
  have : ("1" : String) = "3" := h1.1.mp hmem
  simp at this

end Lix

namespace Lix

/-! ## Embedding of the mock CSV plugin (src/unnamed/part_005)

The plugin operates on the parsed CSV grid (`papaparse.parse` result, a list
of rows of cell strings).  The database accesses made by `applyChanges`
(`getParentChange` and the snapshot lookup) are embedded as query functions.
JavaScript sparse-array assignment beyond the current length is embedded as
padding with empty rows / empty-string cells, which is also what the
`!cell` falsiness padding loop in the source produces for the cells it
touches. -/

namespace Csv

structure Cell where
  rowIndex : Nat
  columnIndex : Nat
  text : String
deriving DecidableEq, Repr

structure CsvChange where
  id : String
  snapshot_id : String
  value : Option Cell
deriving DecidableEq, Repr

/-- Query surface of `lix.db` as used by the plugin: `getParentChange` and
the snapshot `value` lookup.  `snapshotValue` returns `none` when no
snapshot row exists (the `executeTakeFirstOrThrow` throw) and `some none`
when the row exists with null content. -/
structure CsvDb where
  parentOf : String → Option CsvChange
  snapshotValue : String → Option (Option Cell)

def padCells (row : List String) (n : Nat) : List String :=
  row ++ List.replicate (n - row.length) ""

/-- Cell assignment `row[j] = t`, extending the row when `j` is beyond its
length (the source pads the skipped cells with `""`). -/
def setAt (row : List String) (j : Nat) (t : String) : List String :=
  (padCells row (j + 1)).set j t

def padRows (rows : List (List String)) (n : Nat) : List (List String) :=
  rows ++ List.replicate (n - rows.length) []

/-- The `change.value` branch of `applyChanges`: create the row if missing,
pad the columns up to `columnIndex`, then update the cell. -/
def applyCell (rows : List (List String)) (cell : Cell) : List (List String) :=
  let rows' := padRows rows (cell.rowIndex + 1)
  rows'.set cell.rowIndex (setAt (rows'.getD cell.rowIndex []) cell.columnIndex cell.text)

/-- One iteration of the `for (const change of changes)` loop of
`applyChanges`.  A deletion (absent `value`) looks up the parent change; a
missing parent is the fatal `throw new Error(...)` of the source. -/
def applyChangeStep (db : CsvDb) (rows : List (List String)) (ch : CsvChange) :
    Except String (List (List String)) :=
  match ch.value with
  | some cell => Except.ok (applyCell rows cell)
  | none =>
    match db.parentOf ch.id with
    | none =>
      Except.error "Expected a previous change to exist if a value is undefined (a deletion)"
    | some parent =>
      match db.snapshotValue parent.snapshot_id with
      | none => Except.error "snapshot row not found"
      | some none => Except.error "parent snapshot has no content"
      | some (some pcell) =>
        if pcell.rowIndex < rows.length then
          let row' := setAt (rows.getD pcell.rowIndex []) pcell.columnIndex ""
          if row'.all fun cell => cell = "" then
            Except.ok (rows.eraseIdx pcell.rowIndex)
          else
            Except.ok (rows.set pcell.rowIndex row')
        else
          Except.error "cannot set a cell of an undefined row"

/-- The loop of `mockCsvPlugin.applyChanges` over the parsed grid. -/
def applyChanges (db : CsvDb) (rows : List (List String)) (changes : List CsvChange) :
    Except String (List (List String)) :=
  changes.foldlM (applyChangeStep db) rows

/-! Detection side (`mockCsvPlugin.detectChanges`).  `before`/`after` are the
optionally-present parsed CSV grids; an out-of-range row or cell index is the
JavaScript `undefined`, embedded as `none`. -/

def rowAt (g : Option (List (List String))) (i : Nat) : Option (List String) :=
  g.bind fun rows => rows.get? i

def cellAt (g : Option (List (List String))) (i j : Nat) : Option String :=
  (rowAt g i).bind fun row => row.get? j

def rowsLength (g : Option (List (List String))) : Nat :=
  match g with
  | none => 0
  | some rows => rows.length

structure DetectedChange where
  entity_id : String
  snapshot : Option Cell
deriving DecidableEq, Repr

def entityId (i j : Nat) : String := toString i ++ "-" ++ toString j

/-- Embedding of `mockCsvPlugin.detectChanges` (part_005 lines 68-110): for
each cell position up to the larger of the two row/column counts, a change is
reported when the texts differ; the snapshot is present only when the new
text is truthy (a nonempty string), mirroring `afterText ? {...} : undefined`. -/
def detectChanges (before after : Option (List (List String))) : List DetectedChange :=
  match after with
  | none => []
  | some afterRows =>
    let numRows := max (rowsLength before) afterRows.length
    (List.range numRows).flatMap fun i =>
      let beforeRow := rowAt before i
      let afterRow := afterRows.get? i
      let numColumns := max ((beforeRow.map List.length).getD 0)
        ((afterRow.map List.length).getD 0)
      (List.range numColumns).filterMap fun j =>
        let beforeText := beforeRow.bind fun r => r.get? j
        let afterText := afterRow.bind fun r => r.get? j
        if beforeText ≠ afterText then
          some ⟨entityId i j,
            match afterText with
            | some t => if t ≠ "" then some ⟨i, j, t⟩ else none
            | none => none⟩
        else none

end Csv

theorem except_error_bind {α β : Type} (e : String) (f : α → Except String β) :
    (Except.error e >>= f : Except String β) = Except.error e := rfl

theorem except_ok_bind {α β : Type} (a : α) (f : α → Except String β) :
    (Except.ok a >>= f : Except String β) = f a := rfl

/-- C8: processing a deletion record (absent snapshot value) whose entity has
no prior change is fatal — `applyChanges` returns an error (never a partial
grid), and when that record is reached the error is the loud message of the
source identifying the logic error. -/
theorem applyChanges_missing_ancestor_fatal (db : Csv.CsvDb)
    (rows : List (List String)) (changes : List Csv.CsvChange)
    (ch : Csv.CsvChange) (hmem : ch ∈ changes) (hval : ch.value = none)
    (hpar : db.parentOf ch.id = none) :
    (∃ msg, Csv.applyChanges db rows changes = Except.error msg) ∧
      Csv.applyChanges db rows [ch] =
        Except.error
          "Expected a previous change to exist if a value is undefined (a deletion)" := by
  constructor
  · induction changes generalizing rows with
    | nil => cases hmem
    | cons c cs ih =>
      rcases List.mem_cons.mp hmem with rfl | hmem'
      · refine ⟨"Expected a previous change to exist if a value is undefined (a deletion)", ?_⟩
        simp [Csv.applyChanges, List.foldlM, Csv.applyChangeStep, hval, hpar,
          except_error_bind]
      · rcases hstep : Csv.applyChangeStep db rows c with e | rows'
        · exact ⟨e, by
            simp [Csv.applyChanges, List.foldlM, hstep, except_error_bind]⟩
        · obtain ⟨msg, hmsg⟩ := ih rows' hmem'
          refine ⟨msg, ?_⟩
          simpa [Csv.applyChanges, List.foldlM, hstep, except_ok_bind] using hmsg
  · simp [Csv.applyChanges, List.foldlM, Csv.applyChangeStep, hval, hpar,
      except_error_bind]

/-- Witness for C8: a concrete deletion change with no parent in the
database makes `applyChanges` fail with the source's error message. -/
theorem applyChanges_missing_ancestor_fatal_witness :
    (∃ msg,
      Csv.applyChanges ⟨fun _ => none, fun _ => none⟩ [["a", "b"]]
        [⟨"c1", "s1", none⟩] = Except.error msg) ∧
      Csv.applyChanges ⟨fun _ => none, fun _ => none⟩ [["a", "b"]]
        [⟨"c1", "s1", none⟩] =
        Except.error
          "Expected a previous change to exist if a value is undefined (a deletion)" :=
  applyChanges_missing_ancestor_fatal ⟨fun _ => none, fun _ => none⟩
    [["a", "b"]] [⟨"c1", "s1", none⟩] ⟨"c1", "s1", none⟩ (by simp) rfl rfl

end Lix

namespace Lix

theorem mem_detectChanges (before : Option (List (List String)))
    (afterRows : List (List String)) (i j : Nat)
    (hi : i < max (Csv.rowsLength before) afterRows.length)
    (hj : j < max (((Csv.rowAt before i).map List.length).getD 0)
      (((afterRows.get? i).map List.length).getD 0))
    (hne : Csv.cellAt before i j ≠ Csv.cellAt (some afterRows) i j) :
    Csv.DetectedChange.mk (Csv.entityId i j)
      (match Csv.cellAt (some afterRows) i j with
        | some t => if t ≠ "" then some ⟨i, j, t⟩ else none
        | none => none) ∈ Csv.detectChanges before (some afterRows) := by
  have hrow : Csv.rowAt (some afterRows) i = afterRows.get? i := rfl
  show Csv.DetectedChange.mk (Csv.entityId i j) _ ∈
    (List.range (max (Csv.rowsLength before) afterRows.length)).flatMap _
  refine List.mem_flatMap.mpr ⟨i, List.mem_range.mpr hi, ?_⟩
  refine List.mem_filterMap.mpr ⟨j, List.mem_range.mpr hj, ?_⟩
  have hbt : (Csv.rowAt before i).bind (fun r => r.get? j) = Csv.cellAt before i j := rfl
  have hat : (afterRows.get? i).bind (fun r => r.get? j) =
      Csv.cellAt (some afterRows) i j := rfl
  simp only [hbt, hat, if_pos hne]

/-- C10: in `detectChanges`, a cell edited from a nonempty string to the
empty string is reported with an absent snapshot — the deletion sentinel —
because the plugin tests the truthiness of the new text, so the produced
record is identical to the one produced when the cell is deleted outright. -/
theorem detectChanges_edit_to_empty_is_deletion (before : Option (List (List String)))
    (afterRows : List (List String)) (i j : Nat) (t : String)
    (hbefore : Csv.cellAt before i j = some t) (ht : t ≠ "")
    (hafter : Csv.cellAt (some afterRows) i j = some "") :
    (Csv.DetectedChange.mk (Csv.entityId i j) none ∈
      Csv.detectChanges before (some afterRows)) ∧
    ∀ after2 : List (List String), Csv.cellAt (some after2) i j = none →
      Csv.DetectedChange.mk (Csv.entityId i j) none ∈
        Csv.detectChanges before (some after2) := by
  obtain ⟨brow, hbrow, hbcell⟩ := Option.bind_eq_some.mp hbefore
  obtain ⟨rows0, hrows0, hget0⟩ := Option.bind_eq_some.mp hbrow
  obtain ⟨hbi, -⟩ := List.get?_eq_some.mp hget0
  obtain ⟨hbj, -⟩ := List.get?_eq_some.mp hbcell
  have hbr : Csv.rowAt before i = some brow := hbrow
  have hbL : ((Csv.rowAt before i).map List.length).getD 0 = brow.length := by
    rw [hbr]; rfl
  have hrL : Csv.rowsLength before = rows0.length := by
    subst hrows0; rfl
  constructor
  · obtain ⟨arow, harow, hacell⟩ := Option.bind_eq_some.mp hafter
    obtain ⟨hai, -⟩ := List.get?_eq_some.mp harow
    obtain ⟨haj, -⟩ := List.get?_eq_some.mp hacell
    have harow' : afterRows.get? i = some arow := harow
    have hne : Csv.cellAt before i j ≠ Csv.cellAt (some afterRows) i j := by
      rw [hbefore, hafter]
      intro h
      exact ht (Option.some.injEq .. ▸ h)
    have hmem := mem_detectChanges before afterRows i j
      (lt_max_of_lt_right hai)
      (by
        rw [harow']
        refine lt_max_of_lt_right ?_
        simpa using haj)
      hne
    rw [hafter] at hmem
    simpa using hmem
  · intro after2 hnone
    have hne : Csv.cellAt before i j ≠ Csv.cellAt (some after2) i j := by
      rw [hbefore, hnone]; simp
    have hmem := mem_detectChanges before after2 i j
      (by rw [hrL]; exact lt_max_of_lt_left hbi)
      (by
        rw [hbL]
        exact lt_max_of_lt_left hbj)
      hne
    rw [hnone] at hmem
    simpa using hmem

/-- Witness for C10: editing the single cell "x" to "" is reported as the
deletion record 0-0 with an absent snapshot, exactly as removing the cell. -/
theorem detectChanges_edit_to_empty_is_deletion_witness :
    (Csv.DetectedChange.mk (Csv.entityId 0 0) none ∈
      Csv.detectChanges (some [["x"]]) (some [[""]])) ∧
    Csv.DetectedChange.mk (Csv.entityId 0 0) none ∈
      Csv.detectChanges (some [["x"]]) (some [[]]) := by
  have h := detectChanges_edit_to_empty_is_deletion (some [["x"]]) [[""]] 0 0 "x"
    (by rfl) (by decide) (by rfl)
  exact ⟨h.1, h.2 [[]] (by rfl)⟩

end Lix

namespace Lix

/-! ## Snapshot store (C3, C6)

Modelled from the spec: the `initDb` implementation (snapshot id default and
the content-hash trigger) is not under `src/` — only its test
(`initDb.test.ts`) is.  Spec sections 3 and 4.1: the snapshot id is a SHA-256
hash over the canonical serialization of the content (stable key ordering),
null content always maps to the fixed sentinel id `no-content`, and insertion
is insert-or-reuse. -/

/-- JSON-like content values stored in snapshots. -/
inductive JsonVal where
  | null
  | bool (b : Bool)
  | num (n : Int)
  | str (s : String)
  | arr (elems : List JsonVal)
  | obj (fields : List (String × JsonVal))
deriving Repr

def hexDigit (n : Nat) : Char :=
  "0123456789abcdef".toList.getD n '0'

def escapeChar (c : Char) : List Char :=
  if c = '"' then ['\\', '"']
  else if c = '\\' then ['\\', '\\']
  else if c = '\n' then ['\\', 'n']
  else if c = '\r' then ['\\', 'r']
  else if c = '\t' then ['\\', 't']
  else if c.toNat < 32 then
    ['\\', 'u', '0', '0', hexDigit (c.toNat / 16), hexDigit (c.toNat % 16)]
  else [c]

/-- JSON string literal rendering. -/
def quoteJson (s : String) : String :=
  "\"" ++ String.mk (s.toList.flatMap escapeChar) ++ "\""

/-- Total order used to canonicalise object fields after the values have
been serialized: lexicographic on (key, rendered value). With the unique
keys of a JSON object this is exactly ordering by key. -/
def fieldLE (p q : String × String) : Prop :=
  p.1 < q.1 ∨ (p.1 = q.1 ∧ p.2 ≤ q.2)

instance : DecidableRel fieldLE := fun p q => by
  unfold fieldLE; infer_instance

instance : IsTotal (String × String) fieldLE := by
  constructor
  intro p q
  rcases lt_trichotomy p.1 q.1 with h | h | h
  · exact Or.inl (Or.inl h)
  · rcases le_total p.2 q.2 with h2 | h2
    · exact Or.inl (Or.inr ⟨h, h2⟩)
    · exact Or.inr (Or.inr ⟨h.symm, h2⟩)
  · exact Or.inr (Or.inl h)

instance : IsTrans (String × String) fieldLE := by
  constructor
  rintro p q r (h1 | ⟨h1, h1'⟩) (h2 | ⟨h2, h2'⟩)
  · exact Or.inl (lt_trans h1 h2)
  · exact Or.inl (h2 ▸ h1)
  · exact Or.inl (h1 ▸ h2)
  · exact Or.inr ⟨h1.trans h2, h1'.trans h2'⟩

instance : IsAntisymm (String × String) fieldLE := by
  constructor
  rintro p q (h1 | ⟨h1, h1'⟩) (h2 | ⟨h2, h2'⟩)
  · exact absurd (lt_trans h1 h2) (lt_irrefl _)
  · exact absurd h1 (h2 ▸ lt_irrefl _)
  · exact absurd h2 (h1 ▸ lt_irrefl _)
  · exact Prod.ext h1 (le_antisymm h1' h2')

/-- Sort rendered object fields into canonical order. -/
def sortFields (l : List (String × String)) : List (String × String) :=
  List.insertionSort fieldLE l

theorem sortFields_perm_eq {l1 l2 : List (String × String)} (h : List.Perm l1 l2) :
    sortFields l1 = sortFields l2 :=
  List.eq_of_perm_of_sorted
    ((List.perm_insertionSort fieldLE l1).trans
      (h.trans (List.perm_insertionSort fieldLE l2).symm))
    (List.sorted_insertionSort fieldLE l1)
    (List.sorted_insertionSort fieldLE l2)

/-- Canonical serialization of a content value: JSON rendering with object
fields sorted (stable key ordering, as the spec requires for deterministic
hashing). -/
def canonicalSerialize : JsonVal → String
  | .null => "null"
  | .bool true => "true"
  | .bool false => "false"
  | .num n => toString n
  | .str s => quoteJson s
  | .arr xs =>
    "[" ++ String.intercalate "," (xs.attach.map fun x => canonicalSerialize x.1) ++ "]"
  | .obj fs =>
    "\x7b" ++ String.intercalate ","
      ((sortFields (fs.attach.map fun p => (p.1.1, canonicalSerialize p.1.2))).map
        fun q => quoteJson q.1 ++ ":" ++ q.2) ++ "\x7d"
termination_by v => sizeOf v
decreasing_by
  · have := List.sizeOf_lt_of_mem x.2
    simp only [JsonVal.arr.sizeOf_spec]
    omega
  · have h1 := List.sizeOf_lt_of_mem p.2
    have h2 : sizeOf p.1.2 < sizeOf p.1 := by
      rcases p.1 with ⟨k, v⟩
      simp
    simp only [JsonVal.obj.sizeOf_spec]
    omega

end Lix

namespace Lix

/-! ## SHA-256 over byte lists

Executable SHA-256 (FIPS 180-4) on `List Nat` bytes, with 32-bit words as
naturals reduced modulo `2^32`.  Used as the content hash of the snapshot
store model. -/

def w32 (x : Nat) : Nat := x % 4294967296

def rotr (n x : Nat) : Nat := w32 ((x >>> n) ||| (x <<< (32 - n)))

def xor3 (a b c : Nat) : Nat := (a ^^^ b) ^^^ c

def bigSigma0 (x : Nat) : Nat := xor3 (rotr 2 x) (rotr 13 x) (rotr 22 x)

def bigSigma1 (x : Nat) : Nat := xor3 (rotr 6 x) (rotr 11 x) (rotr 25 x)

def smallSigma0 (x : Nat) : Nat := xor3 (rotr 7 x) (rotr 18 x) (x >>> 3)

def smallSigma1 (x : Nat) : Nat := xor3 (rotr 17 x) (rotr 19 x) (x >>> 10)

def chFn (x y z : Nat) : Nat := (x &&& y) ^^^ ((x ^^^ 4294967295) &&& z)

def majFn (x y z : Nat) : Nat := xor3 (x &&& y) (x &&& z) (y &&& z)

def sha256K : List Nat :=
  [1116352408, 1899447441, 3049323471, 3921009573, 961987163,
   1508970993, 2453635748, 2870763221, 3624381080, 310598401,
   607225278, 1426881987, 1925078388, 2162078206, 2614888103,
   3248222580, 3835390401, 4022224774, 264347078, 604807628,
   770255983, 1249150122, 1555081692, 1996064986, 2554220882,
   2821834349, 2952996808, 3210313671, 3336571891, 3584528711,
   113926993, 338241895, 666307205, 773529912, 1294757372,
   1396182291, 1695183700, 1986661051, 2177026350, 2456956037,
   2730485921, 2820302411, 3259730800, 3345764771, 3516065817,
   3600352804, 4094571909, 275423344, 430227734, 506948616,
   659060556, 883997877, 958139571, 1322822218, 1537002063,
   1747873779, 1955562222, 2024104815, 2227730452, 2361852424,
   2428436474, 2756734187, 3204031479, 3329325298]

def sha256H0 : List Nat :=
  [1779033703, 3144134277, 1013904242,
   2773480762, 1359893119, 2600822924,
   528734635, 1541459225]

def bytesBE (n x : Nat) : List Nat :=
  (List.range n).map fun i => (x >>> (8 * (n - 1 - i))) % 256

def padMessage (msg : List Nat) : List Nat :=
  let padZeros := (120 - (msg.length + 1) % 64) % 64
  msg ++ [128] ++ List.replicate padZeros 0 ++ bytesBE 8 (msg.length * 8)

def toWords : List Nat → List Nat
  | a :: b :: c :: d :: t => (((a * 256 + b) * 256 + c) * 256 + d) :: toWords t
  | _ => []

def toBlocksAux : Nat → List Nat → List (List Nat)
  | 0, _ => []
  | _, [] => []
  | fuel + 1, w :: t => ((w :: t).take 16) :: toBlocksAux fuel ((w :: t).drop 16)

def toBlocks (ws : List Nat) : List (List Nat) := toBlocksAux ws.length ws

def scheduleStep (w : List Nat) : List Nat :=
  w ++ [w32 (w.getD (w.length - 16) 0 + smallSigma0 (w.getD (w.length - 15) 0) +
    w.getD (w.length - 7) 0 + smallSigma1 (w.getD (w.length - 2) 0))]

def extendWords (w : List Nat) : List Nat := scheduleStep^[48] w

def roundStep (st : List Nat) (kw : Nat × Nat) : List Nat :=
  match st with
  | [a, b, c, d, e, f, g, h] =>
    let t1 := w32 (h + bigSigma1 e + chFn e f g + kw.1 + kw.2)
    let t2 := w32 (bigSigma0 a + majFn a b c)
    [w32 (t1 + t2), a, b, c, w32 (d + t1), e, f, g]
  | _ => st

def compressBlock (h : List Nat) (block : List Nat) : List Nat :=
  let st := (sha256K.zip (extendWords block)).foldl roundStep h
  List.zipWith (fun x y => w32 (x + y)) h st

def sha256 (msg : List Nat) : List Nat :=
  ((toBlocks (toWords (padMessage msg))).foldl compressBlock sha256H0).flatMap
    (bytesBE 4)

def utf8Encode (c : Char) : List Nat :=
  let n := c.toNat
  if n < 128 then [n]
  else if n < 2048 then [192 + n / 64, 128 + n % 64]
  else if n < 65536 then [224 + n / 4096, 128 + (n / 64) % 64, 128 + n % 64]
  else [240 + n / 262144, 128 + (n / 4096) % 64, 128 + (n / 64) % 64, 128 + n % 64]

def utf8Bytes (s : String) : List Nat := s.toList.flatMap utf8Encode

def toHex (bytes : List Nat) : String :=
  String.mk (bytes.flatMap fun b => [hexDigit (b / 16), hexDigit (b % 16)])

def sha256hex (s : String) : String := toHex (sha256 (utf8Bytes s))

end Lix

namespace Lix

/-! ## Structural equality of content values

Two values are structurally equal when they agree up to the ordering of
object fields (at any depth).  This is the sense in which the spec's
"for all content values v1 == v2 (structurally)" quantifies. -/

mutual
inductive StructEq : JsonVal → JsonVal → Prop where
  | null : StructEq .null .null
  | bool (b : Bool) : StructEq (.bool b) (.bool b)
  | num (n : Int) : StructEq (.num n) (.num n)
  | str (s : String) : StructEq (.str s) (.str s)
  | arr {xs ys : List JsonVal} : StructEqList xs ys → StructEq (.arr xs) (.arr ys)
  | obj {f1 f2p f2 : List (String × JsonVal)} :
      StructEqFields f1 f2p → List.Perm f2p f2 → StructEq (.obj f1) (.obj f2)

inductive StructEqList : List JsonVal → List JsonVal → Prop where
  | nil : StructEqList [] []
  | cons {x y : JsonVal} {xs ys : List JsonVal} :
      StructEq x y → StructEqList xs ys → StructEqList (x :: xs) (y :: ys)

inductive StructEqFields : List (String × JsonVal) → List (String × JsonVal) → Prop where
  | nil : StructEqFields [] []
  | cons {k : String} {v w : JsonVal} {fs gs : List (String × JsonVal)} :
      StructEq v w → StructEqFields fs gs →
      StructEqFields ((k, v) :: fs) ((k, w) :: gs)
end

theorem canonicalSerialize_arr (xs : List JsonVal) :
    canonicalSerialize (.arr xs) =
      "[" ++ String.intercalate "," (xs.map canonicalSerialize) ++ "]" := by
  rw [canonicalSerialize, List.attach_map_val xs canonicalSerialize]

theorem canonicalSerialize_obj (fs : List (String × JsonVal)) :
    canonicalSerialize (.obj fs) =
      "\x7b" ++ String.intercalate ","
        ((sortFields (fs.map fun p => (p.1, canonicalSerialize p.2))).map
          fun q => quoteJson q.1 ++ ":" ++ q.2) ++ "\x7d" := by
  rw [canonicalSerialize,
    List.attach_map_val fs fun p => (p.1, canonicalSerialize p.2)]

theorem structEqList_map_ser (xs ys : List JsonVal) (h : StructEqList xs ys)
    (IH : ∀ x ∈ xs, ∀ y, StructEq x y → canonicalSerialize x = canonicalSerialize y) :
    xs.map canonicalSerialize = ys.map canonicalSerialize := by
  induction xs generalizing ys with
  | nil => cases h; rfl
  | cons x xs ih =>
    cases h with
    | cons hxy ht =>
      rename_i y ys'
      simp only [List.map_cons]
      rw [IH x (by simp) y hxy,
        ih ys' ht fun a ha b hb => IH a (List.mem_cons_of_mem _ ha) b hb]

theorem structEqFields_map_ser (fs gs : List (String × JsonVal))
    (h : StructEqFields fs gs)
    (IH : ∀ p ∈ fs, ∀ w, StructEq p.2 w →
      canonicalSerialize p.2 = canonicalSerialize w) :
    (fs.map fun p => (p.1, canonicalSerialize p.2)) =
      gs.map fun p => (p.1, canonicalSerialize p.2) := by
  induction fs generalizing gs with
  | nil => cases h; rfl
  | cons p fs ih =>
    obtain ⟨k, v⟩ := p
    cases h with
    | cons hvw ht =>
      rename_i w gs'
      simp only [List.map_cons]
      rw [show canonicalSerialize v = canonicalSerialize w from
          IH (k, v) (by simp) w hvw,
        ih gs' ht fun q hq b hb => IH q (List.mem_cons_of_mem _ hq) b hb]

/-- Canonical serialization is invariant under structural equality: object
field order never affects the serialized form. -/
theorem canonicalSerialize_structEq (a b : JsonVal) (h : StructEq a b) :
    canonicalSerialize a = canonicalSerialize b := by
  cases h with
  | null => rfl
  | bool b => rfl
  | num n => rfl
  | str s => rfl
  | arr hl =>
    rename_i xs ys
    rw [canonicalSerialize_arr, canonicalSerialize_arr,
      structEqList_map_ser xs ys hl fun x hx y hxy =>
        canonicalSerialize_structEq x y hxy]
  | obj hf hperm =>
    rename_i f1 f2p f2
    rw [canonicalSerialize_obj, canonicalSerialize_obj]
    have h1 : (f1.map fun p => (p.1, canonicalSerialize p.2)) =
        f2p.map fun p => (p.1, canonicalSerialize p.2) :=
      structEqFields_map_ser f1 f2p hf fun p hp w hw =>
        canonicalSerialize_structEq p.2 w hw
    have h2 : List.Perm (f2p.map fun p => (p.1, canonicalSerialize p.2))
        (f2.map fun p => (p.1, canonicalSerialize p.2)) := hperm.map _
    rw [sortFields_perm_eq (h1 ▸ h2)]
termination_by sizeOf a
decreasing_by
  · have := List.sizeOf_lt_of_mem hx
    simp only [JsonVal.arr.sizeOf_spec]
    omega
  · have h3 := List.sizeOf_lt_of_mem hp
    have h4 : sizeOf p.2 < sizeOf p := by
      rcases p with ⟨k, v⟩
      simp
    simp only [JsonVal.obj.sizeOf_spec]
    omega

end Lix

namespace Lix

/-- Snapshot rows: content-addressed id paired with the stored content.
Modelled from the spec (section 3 and 4.1); the schema/trigger code of
`initDb` is not under `src/`. -/
structure SnapshotStore where
  rows : List (String × Option JsonVal)

/-- Snapshot id computation: SHA-256 over the canonical serialization, with
the fixed sentinel `no-content` for null content. -/
def snapshotId (content : Option JsonVal) : String :=
  match content with
  | none => "no-content"
  | some v => sha256hex (canonicalSerialize v)

/-- Insert-or-reuse `put`: compute the content id, insert the row only when
the id is absent, and return the id. -/
def putSnapshot (s : SnapshotStore) (content : Option JsonVal) :
    SnapshotStore × String :=
  let id := snapshotId content
  if s.rows.any fun r => r.1 = id then (s, id)
  else (⟨s.rows ++ [(id, content)]⟩, id)

theorem putSnapshot_snd (s : SnapshotStore) (content : Option JsonVal) :
    (putSnapshot s content).2 = snapshotId content := by
  simp only [putSnapshot]
  split <;> rfl

/-- C3: the snapshot id returned by `put` is a deterministic content hash:
structurally equal content values receive the same id on any store, the id
is the SHA-256 of the canonical serialization, and the embedding reproduces
the exact id of the `initDb` test content. -/
theorem putSnapshot_deterministic_content_hash (s1 s2 : SnapshotStore)
    (v1 v2 : JsonVal) (h : StructEq v1 v2) :
    (putSnapshot s1 (some v1)).2 = (putSnapshot s2 (some v2)).2 ∧
    (putSnapshot s1 (some v1)).2 = sha256hex (canonicalSerialize v1) ∧
    (putSnapshot s1
        (some (JsonVal.obj [("a", JsonVal.str "value from insert statement")]))).2 =
      "19ce22178013c4a047e8c90135ed57bfe4cc6451917dbb75f5b838922cf10b19" := by
  refine ⟨?_, ?_, ?_⟩
  · rw [putSnapshot_snd, putSnapshot_snd]
    simp only [snapshotId, canonicalSerialize_structEq v1 v2 h]
  · rw [putSnapshot_snd]; rfl
  · rw [putSnapshot_snd]
    have hser : canonicalSerialize
        (JsonVal.obj [("a", JsonVal.str "value from insert statement")]) =
        "\x7b\"a\":\"value from insert statement\"\x7d" := by
      simp [canonicalSerialize, sortFields, quoteJson]
      rfl
    simp only [snapshotId, hser]
    decide

/-- Witness for C3: two objects with the same fields in different order get
the same id on the empty store. -/
theorem putSnapshot_deterministic_content_hash_witness :
    (putSnapshot ⟨[]⟩
        (some (JsonVal.obj [("a", JsonVal.str "x"), ("b", JsonVal.num 1)]))).2 =
      (putSnapshot ⟨[]⟩
        (some (JsonVal.obj [("b", JsonVal.num 1), ("a", JsonVal.str "x")]))).2 :=
  (putSnapshot_deterministic_content_hash ⟨[]⟩ ⟨[]⟩ _ _
    (StructEq.obj
      (StructEqFields.cons (StructEq.str "x")
        (StructEqFields.cons (StructEq.num 1) StructEqFields.nil))
      (List.Perm.swap ("b", JsonVal.num 1) ("a", JsonVal.str "x") []))).1

/-- C6: putting null content always returns the fixed sentinel id
`no-content`, and repeating the insertion adds no row to the store. -/
theorem putSnapshot_null_sentinel (s : SnapshotStore) :
    (putSnapshot s none).2 = "no-content" ∧
    (putSnapshot (putSnapshot s none).1 none).2 = "no-content" ∧
    (putSnapshot (putSnapshot s none).1 none).1.rows =
      (putSnapshot s none).1.rows := by
  refine ⟨putSnapshot_snd s none, putSnapshot_snd _ none, ?_⟩
  have hmem : ((putSnapshot s none).1.rows.any fun r => r.1 = "no-content") = true := by
    unfold putSnapshot
    rcases hany : s.rows.any fun r => r.1 = snapshotId none with _ | _
    · simp only [snapshotId] at hany
      simp [hany, snapshotId]
    · simp only [snapshotId] at hany
      simp [hany, snapshotId]
  conv_lhs => rw [putSnapshot]
  simp only [snapshotId, hmem, if_true]

end Lix

namespace Lix

/-! ## Version / branch switch model (C1, C2, C7)

Modelled from the spec: the implementations of `createVersion`,
`switchVersion` and the key-value/file write path are not under `src/` —
only `switch-version.test.ts` is.  Spec section 4.4: every version owns a
change set of per-entity leaf changes; a write while a version is active
creates a Change row and updates both the materialized state and the active
version's leaves; `switchVersion` saves the active materialization,
recomputes the target's, invokes the plugin's `applyChanges` capability once
per file whose leaf changes diverge between the two versions, and reassigns
the current-version pointer.  A per-entity entry `some v` is a value leaf,
`none` is a deletion leaf (the `no-content` snapshot), and an absent entry
means the version never touched the entity. -/

structure EngineChange where
  id : Nat
  entity_id : String
  snapshot : Option String
deriving DecidableEq, Repr

abbrev EntityState := List (String × Option String)

def lookupA {κ α : Type} [DecidableEq κ] (k : κ) : List (κ × α) → Option α
  | [] => none
  | (k', v) :: t => if k' = k then some v else lookupA k t

def upsertA {κ α : Type} [DecidableEq κ] (k : κ) (v : α) :
    List (κ × α) → List (κ × α)
  | [] => [(k, v)]
  | (k', v') :: t => if k' = k then (k, v) :: t else (k', v') :: upsertA k v t

theorem lookupA_upsertA_self {κ α : Type} [DecidableEq κ] (k : κ) (v : α)
    (m : List (κ × α)) : lookupA k (upsertA k v m) = some v := by
  induction m with
  | nil => simp [lookupA, upsertA]
  | cons p t ih =>
    rcases p with ⟨k', v'⟩
    by_cases h : k' = k
    · simp [lookupA, upsertA, h]
    · simp [lookupA, upsertA, h, ih]

theorem lookupA_upsertA_ne {κ α : Type} [DecidableEq κ] {q k : κ} (h : q ≠ k)
    (v : α) (m : List (κ × α)) : lookupA q (upsertA k v m) = lookupA q m := by
  have hkq : ¬ (k = q) := fun he => h he.symm
  induction m with
  | nil => simp [lookupA, upsertA, hkq]
  | cons p t ih =>
    rcases p with ⟨k', v'⟩
    show lookupA q (if k' = k then (k, v) :: t else (k', v') :: upsertA k v t) =
      lookupA q ((k', v') :: t)
    by_cases hk : k' = k
    · subst hk
      rw [if_pos rfl]
      simp [lookupA, hkq, fun he : k' = q => h he.symm]
    · rw [if_neg hk]
      by_cases hq : k' = q
      · simp [lookupA, hq]
      · simp [lookupA, hq, ih]

/-- Engine state: the global append-only change table, the per-version leaf
states, the current-version pointer, the materialized state of the active
version, id counters, and the number of plugin `applyChanges` invocations. -/
structure Engine where
  changes : List EngineChange
  versions : List (Nat × EntityState)
  current : Nat
  materialized : EntityState
  nextVersionId : Nat
  nextChangeId : Nat
  applyCalls : Nat
deriving DecidableEq, Repr

/-- Persist the active version's materialized state into the version table
(performed before any operation that reads or reassigns version states). -/
def saveCurrent (e : Engine) : Engine :=
  { e with versions := upsertA e.current e.materialized e.versions }

/-- Create a new version: a root version starts empty; forking from a parent
shares the parent's change-set leaves (no Change rows are copied). Fails when
the parent is unknown. -/
def createVersion (e : Engine) (parent : Option Nat) : Option (Engine × Nat) :=
  let e1 := saveCurrent e
  let st? : Option EntityState :=
    match parent with
    | none => some []
    | some p => lookupA p e1.versions
  st?.map fun st =>
    ({ e1 with
        versions := upsertA e1.nextVersionId st e1.versions,
        nextVersionId := e1.nextVersionId + 1 },
      e1.nextVersionId)

/-- Entities whose leaf changes diverge between two states — the files for
which the plugin's `applyChanges` must be invoked on a switch. -/
def diffKeys (m1 m2 : EntityState) : List String :=
  ((m1.map Prod.fst ++ m2.map Prod.fst).dedup).filter fun k =>
    lookupA k m1 ≠ lookupA k m2

def diffCount (m1 m2 : EntityState) : Nat := (diffKeys m1 m2).length

/-- Switch the active version: save the current materialization, look up the
target's state (not-found is an error), re-materialize it invoking the
plugin once per diverging entity, and reassign the current pointer.  The
change table is never touched. -/
def switchVersion (e : Engine) (tgtId : Nat) : Option Engine :=
  let e1 := saveCurrent e
  (lookupA tgtId e1.versions).map fun tgt =>
    { e1 with
        materialized := tgt,
        applyCalls := e1.applyCalls + diffCount e1.materialized tgt,
        current := tgtId }

/-- Write a key-value entity in the active version: appends one Change row
and updates the materialized leaf. -/
def writeKey (e : Engine) (k v : String) : Engine :=
  { e with
      changes := e.changes ++ [⟨e.nextChangeId, k, some v⟩],
      nextChangeId := e.nextChangeId + 1,
      materialized := upsertA k (some v) e.materialized }

/-- Delete an entity in the active version: appends one deletion Change row
(`no-content` snapshot) and sets the materialized leaf to a deletion. -/
def deleteKey (e : Engine) (k : String) : Engine :=
  { e with
      changes := e.changes ++ [⟨e.nextChangeId, k, none⟩],
      nextChangeId := e.nextChangeId + 1,
      materialized := upsertA k none e.materialized }

/-- Read an entity in the active version: a deletion leaf or an untouched
entity both read as absent. -/
def readKey (e : Engine) (k : String) : Option String :=
  match lookupA k e.materialized with
  | some (some v) => some v
  | _ => none

theorem switchVersion_changes {e e' : Engine} {t : Nat}
    (h : switchVersion e t = some e') : e'.changes = e.changes := by
  simp only [switchVersion] at h
  rcases hl : lookupA t (saveCurrent e).versions with _ | tgt
  · rw [hl] at h; cases h
  · rw [hl] at h
    cases h
    rfl

/-- C2: switching versions never creates Change rows — switching away and
back leaves the change table exactly as it was before the switches. -/
theorem switchVersion_no_new_changes (e e1 e2 : Engine) (a b : Nat)
    (h1 : switchVersion e b = some e1) (h2 : switchVersion e1 a = some e2) :
    e2.changes = e.changes := by
  rw [switchVersion_changes h2, switchVersion_changes h1]

/-- Fresh engine used by the witnesses: one empty version `0`, active. -/
def engineW : Engine := ⟨[], [(0, [])], 0, [], 1, 0, 0⟩

/-- Witness for C2: switching the fresh engine 0→0→0 succeeds and preserves
the change table. -/
theorem switchVersion_no_new_changes_witness :
    switchVersion engineW 0 = some engineW ∧ engineW.changes = engineW.changes :=
  ⟨by decide,
    switchVersion_no_new_changes engineW engineW engineW 0 0 (by decide) (by decide)⟩

end Lix

namespace Lix

theorem createVersion_root (e : Engine) :
    createVersion e none =
      some ({ saveCurrent e with
          versions := upsertA e.nextVersionId [] (saveCurrent e).versions,
          nextVersionId := e.nextVersionId + 1 }, e.nextVersionId) := rfl

theorem createVersion_parent (e : Engine) (p : Nat) (st : EntityState)
    (h : lookupA p (saveCurrent e).versions = some st) :
    createVersion e (some p) =
      some ({ saveCurrent e with
          versions := upsertA e.nextVersionId st (saveCurrent e).versions,
          nextVersionId := e.nextVersionId + 1 }, e.nextVersionId) := by
  simp only [createVersion]
  rw [h]
  rfl

theorem switchVersion_eq (e : Engine) (t : Nat) (st : EntityState)
    (h : lookupA t (saveCurrent e).versions = some st) :
    switchVersion e t =
      some { saveCurrent e with
          materialized := st,
          applyCalls := e.applyCalls + diffCount e.materialized st,
          current := t } := by
  simp only [switchVersion]
  rw [h]
  rfl

theorem diffCount_self (m : EntityState) : diffCount m m = 0 := by
  simp [diffCount, diffKeys]

theorem lookupA_mem_keys {κ α : Type} [DecidableEq κ] {q : κ} {x : α}
    {m : List (κ × α)} (h : lookupA q m = some x) : q ∈ m.map Prod.fst := by
  induction m with
  | nil => cases h
  | cons p t ih =>
    rcases p with ⟨k', v'⟩
    by_cases hk : k' = q
    · simp [hk]
    · simp only [lookupA, hk, if_false] at h
      simp [ih h]

theorem filter_eq_singleton_of {l : List String} {p : String → Bool} {k : String}
    (hnd : l.Nodup) (hk : k ∈ l) (hp : ∀ x ∈ l, p x = true ↔ x = k) :
    l.filter p = [k] := by
  induction l with
  | nil => cases hk
  | cons x t ih =>
    rcases List.nodup_cons.mp hnd with ⟨hxt, hndt⟩
    by_cases hx : x = k
    · subst hx
      have hfil : t.filter p = [] := by
        rw [List.filter_eq_nil_iff]
        intro a ha hpa
        exact hxt (((hp a (List.mem_cons_of_mem _ ha)).mp hpa) ▸ ha)
      simp [List.filter_cons, (hp x (by simp)).mpr rfl, hfil]
    · have hkt : k ∈ t := by
        rcases List.mem_cons.mp hk with h | h
        · exact absurd h.symm hx
        · exact h
      have hpx : p x = false := by
        rcases hb : p x with _ | _
        · rfl
        · exact absurd ((hp x (by simp)).mp hb) hx
      simp [List.filter_cons, hpx]
      exact ih hndt hkt fun y hy => hp y (List.mem_cons_of_mem _ hy)

/-- Upserting a genuinely different leaf for one entity makes exactly that
entity diverge. -/
theorem diffCount_upsert (k : String) (w : Option String) (m : EntityState)
    (hne : lookupA k m ≠ some w) :
    diffCount (upsertA k w m) m = 1 := by
  unfold diffCount diffKeys
  rw [filter_eq_singleton_of (List.nodup_dedup _)
    (List.mem_dedup.mpr (List.mem_append_left _
      (lookupA_mem_keys (lookupA_upsertA_self k w m))))
    ?_]
  · rfl
  · intro x hx
    by_cases hxk : x = k
    · subst hxk
      simp [lookupA_upsertA_self]
      exact fun h => hne h.symm
    · simp [lookupA_upsertA_ne hxk, hxk]

end Lix

namespace Lix

theorem switchVersion_some_of {e e' : Engine} {t : Nat}
    (h : switchVersion e t = some e') :
    ∃ st, lookupA t (saveCurrent e).versions = some st ∧
      e' = { saveCurrent e with
          materialized := st,
          applyCalls := e.applyCalls + diffCount e.materialized st,
          current := t } := by
  simp only [switchVersion] at h
  rcases hl : lookupA t (saveCurrent e).versions with _ | st
  · rw [hl] at h; cases h
  · rw [hl] at h
    exact ⟨st, rfl, (Option.some.inj h).symm⟩

theorem createVersion_some_of {e : Engine} {p : Nat} {e' : Engine} {newId : Nat}
    (h : createVersion e (some p) = some (e', newId)) :
    ∃ st, lookupA p (saveCurrent e).versions = some st ∧
      newId = e.nextVersionId ∧
      e' = { saveCurrent e with
          versions := upsertA e.nextVersionId st (saveCurrent e).versions,
          nextVersionId := e.nextVersionId + 1 } := by
  simp only [createVersion] at h
  rcases hl : lookupA p (saveCurrent e).versions with _ | st
  · rw [hl] at h; cases h
  · rw [hl] at h
    obtain ⟨h1, h2⟩ := Prod.mk.injEq .. ▸ Option.some.inj h
    exact ⟨st, rfl, h2.symm, h1.symm⟩

/-- C1: branch isolation across version switches — after writing `k = v`
while sibling version `a` (a fresh fork) is active, switching to sibling `b`
reads the key as absent; after writing `k = v'` in `b` and switching back to
`a`, the key again reads the original `v`: each version's copy-on-write
state is preserved unchanged across switches away and back. -/
theorem switchVersion_branch_isolation (e : Engine) (k v v' : String)
    (a b : Nat) (e1 e2 e3 e5 e7 : Engine)
    (hca : e.current ≠ a) (hcb : e.current ≠ b)
    (h1 : createVersion e none = some (e1, a))
    (h2 : createVersion e1 none = some (e2, b))
    (h3 : switchVersion e2 a = some e3)
    (h5 : switchVersion (writeKey e3 k v) b = some e5)
    (h7 : switchVersion (writeKey e5 k v') a = some e7) :
    readKey e5 k = none ∧ readKey e7 k = some v := by
  rw [createVersion_root, Option.some.injEq, Prod.mk.injEq] at h1
  obtain ⟨he1, ha⟩ := h1
  subst he1
  subst ha
  rw [createVersion_root, Option.some.injEq, Prod.mk.injEq] at h2
  obtain ⟨he2, hb⟩ := h2
  subst he2
  subst hb
  have hca' : e.current ≠ e.nextVersionId := hca
  have hcb' : e.current ≠ e.nextVersionId + 1 := hcb
  have hac : e.nextVersionId ≠ e.current := fun h => hca' h.symm
  have hbc : e.nextVersionId + 1 ≠ e.current := fun h => hcb' h.symm
  have hab : (e.nextVersionId : Nat) ≠ e.nextVersionId + 1 := by omega
  have hba : (e.nextVersionId + 1 : Nat) ≠ e.nextVersionId := by omega
  obtain ⟨st3, hl3, he3⟩ := switchVersion_some_of h3
  have hst3 : some ([] : EntityState) = some st3 := by
    rw [← hl3]
    show some ([] : EntityState) = lookupA e.nextVersionId
      (upsertA e.current e.materialized
        (upsertA (e.nextVersionId + 1) []
          (upsertA e.current e.materialized
            (upsertA e.nextVersionId []
              (upsertA e.current e.materialized e.versions)))))
    rw [lookupA_upsertA_ne hac, lookupA_upsertA_ne hab,
      lookupA_upsertA_ne hac, lookupA_upsertA_self]
  obtain rfl : ([] : EntityState) = st3 := Option.some.inj hst3
  subst he3
  obtain ⟨st5, hl5, he5⟩ := switchVersion_some_of h5
  have hst5 : some ([] : EntityState) = some st5 := by
    rw [← hl5]
    show some ([] : EntityState) = lookupA (e.nextVersionId + 1)
      (upsertA e.nextVersionId (upsertA k (some v) [])
        (upsertA e.current e.materialized
          (upsertA (e.nextVersionId + 1) []
            (upsertA e.current e.materialized
              (upsertA e.nextVersionId []
                (upsertA e.current e.materialized e.versions))))))
    rw [lookupA_upsertA_ne hba, lookupA_upsertA_ne hbc, lookupA_upsertA_self]
  obtain rfl : ([] : EntityState) = st5 := Option.some.inj hst5
  subst he5
  obtain ⟨st7, hl7, he7⟩ := switchVersion_some_of h7
  have hst7 : some (upsertA k (some v) ([] : EntityState)) = some st7 := by
    rw [← hl7]
    show some (upsertA k (some v) ([] : EntityState)) = lookupA e.nextVersionId
      (upsertA (e.nextVersionId + 1) (upsertA k (some v') [])
        (upsertA e.nextVersionId (upsertA k (some v) [])
          (upsertA e.current e.materialized
            (upsertA (e.nextVersionId + 1) []
              (upsertA e.current e.materialized
                (upsertA e.nextVersionId []
                  (upsertA e.current e.materialized e.versions)))))))
    rw [lookupA_upsertA_ne hab, lookupA_upsertA_self]
  obtain rfl : upsertA k (some v) ([] : EntityState) = st7 := Option.some.inj hst7
  subst he7
  constructor
  · rfl
  · show readKey _ k = some v
    simp [readKey, lookupA]

/-- Witness for C1: on the fresh engine, forking sibling versions 1 and 2,
writing foo=bar in version 1, foo=baz in version 2, and switching back
reproduces the isolation test of the source: foo is absent in version 2
before its own write and reads bar again in version 1. -/
theorem switchVersion_branch_isolation_witness :
    readKey (⟨[EngineChange.mk 0 "foo" (some "bar")],
      [(0, []), (1, [("foo", some "bar")]), (2, [])], 2, [], 3, 1, 1⟩ : Engine)
      "foo" = none ∧
    readKey (⟨[EngineChange.mk 0 "foo" (some "bar"),
        EngineChange.mk 1 "foo" (some "baz")],
      [(0, []), (1, [("foo", some "bar")]), (2, [("foo", some "baz")])],
      1, [("foo", some "bar")], 3, 2, 2⟩ : Engine) "foo" = some "bar" :=
  switchVersion_branch_isolation engineW "foo" "bar" "baz" 1 2
    ⟨[], [(0, []), (1, [])], 0, [], 2, 0, 0⟩
    ⟨[], [(0, []), (1, []), (2, [])], 0, [], 3, 0, 0⟩
    ⟨[], [(0, []), (1, []), (2, [])], 1, [], 3, 0, 0⟩
    ⟨[EngineChange.mk 0 "foo" (some "bar")],
      [(0, []), (1, [("foo", some "bar")]), (2, [])], 2, [], 3, 1, 1⟩
    ⟨[EngineChange.mk 0 "foo" (some "bar"), EngineChange.mk 1 "foo" (some "baz")],
      [(0, []), (1, [("foo", some "bar")]), (2, [("foo", some "baz")])],
      1, [("foo", some "bar")], 3, 2, 2⟩
    (by decide) (by decide) (by decide) (by decide) (by decide) (by decide)
    (by decide)

end Lix

namespace Lix

theorem writeKey_current (e : Engine) (k v : String) :
    (writeKey e k v).current = e.current := rfl

theorem writeKey_materialized (e : Engine) (k v : String) :
    (writeKey e k v).materialized = upsertA k (some v) e.materialized := rfl

theorem writeKey_versions (e : Engine) (k v : String) :
    (writeKey e k v).versions = e.versions := rfl

theorem writeKey_nextVersionId (e : Engine) (k v : String) :
    (writeKey e k v).nextVersionId = e.nextVersionId := rfl

theorem writeKey_applyCalls (e : Engine) (k v : String) :
    (writeKey e k v).applyCalls = e.applyCalls := rfl

theorem deleteKey_current (e : Engine) (k : String) :
    (deleteKey e k).current = e.current := rfl

theorem deleteKey_materialized (e : Engine) (k : String) :
    (deleteKey e k).materialized = upsertA k none e.materialized := rfl

theorem deleteKey_versions (e : Engine) (k : String) :
    (deleteKey e k).versions = e.versions := rfl

theorem deleteKey_applyCalls (e : Engine) (k : String) :
    (deleteKey e k).applyCalls = e.applyCalls := rfl

/-- Component characterization of a successful `switchVersion`. -/
theorem switchVersion_inv {e e' : Engine} {t : Nat}
    (h : switchVersion e t = some e') :
    ∃ st, lookupA t (upsertA e.current e.materialized e.versions) = some st ∧
      e'.materialized = st ∧
      e'.applyCalls = e.applyCalls + diffCount e.materialized st ∧
      e'.current = t ∧
      e'.versions = upsertA e.current e.materialized e.versions ∧
      e'.nextVersionId = e.nextVersionId := by
  obtain ⟨st, hl, he⟩ := switchVersion_some_of h
  subst he
  exact ⟨st, hl, rfl, rfl, rfl, rfl, rfl⟩

/-- Component characterization of a successful root `createVersion`. -/
theorem createVersion_root_inv {e e' : Engine} {newId : Nat}
    (h : createVersion e none = some (e', newId)) :
    newId = e.nextVersionId ∧
    e'.versions = upsertA e.nextVersionId []
      (upsertA e.current e.materialized e.versions) ∧
    e'.current = e.current ∧
    e'.materialized = e.materialized ∧
    e'.nextVersionId = e.nextVersionId + 1 ∧
    e'.applyCalls = e.applyCalls := by
  rw [createVersion_root, Option.some.injEq, Prod.mk.injEq] at h
  obtain ⟨he, hn⟩ := h
  subst he
  exact ⟨hn.symm, rfl, rfl, rfl, rfl, rfl⟩

/-- Component characterization of a successful forking `createVersion`. -/
theorem createVersion_parent_inv {e e' : Engine} {p newId : Nat}
    (h : createVersion e (some p) = some (e', newId)) :
    ∃ st, lookupA p (upsertA e.current e.materialized e.versions) = some st ∧
      newId = e.nextVersionId ∧
      e'.versions = upsertA e.nextVersionId st
        (upsertA e.current e.materialized e.versions) ∧
      e'.current = e.current ∧
      e'.materialized = e.materialized ∧
      e'.nextVersionId = e.nextVersionId + 1 ∧
      e'.applyCalls = e.applyCalls := by
  obtain ⟨st, hl, hn, he⟩ := createVersion_some_of h
  subst he
  exact ⟨st, hl, hn, rfl, rfl, rfl, rfl, rfl⟩

/-- C7: deleting an entity while a forked version is active does not affect
the source version: switching to the fresh fork (no divergence) invokes the
plugin's apply capability zero times, switching back after the deletion
invokes it exactly once (a single diverging entity), and the source
version's value is unchanged. -/
theorem switchVersion_deletion_isolation (e : Engine) (k v : String)
    (s t : Nat) (e1 e2 e4 e5 e7 : Engine)
    (hcs : e.current ≠ s)
    (h1 : createVersion e none = some (e1, s))
    (h2 : switchVersion e1 s = some e2)
    (h4 : createVersion (writeKey e2 k v) (some s) = some (e4, t))
    (h5 : switchVersion e4 t = some e5)
    (h7 : switchVersion (deleteKey e5 k) s = some e7) :
    e5.applyCalls = e4.applyCalls ∧
    e7.applyCalls = e5.applyCalls + 1 ∧
    readKey e7 k = some v := by
  obtain ⟨hs, h1ver, h1cur, h1mat, h1next, h1ac⟩ := createVersion_root_inv h1
  subst hs
  have hsc : e.nextVersionId ≠ e.current := fun h => hcs h.symm
  have hab : (e.nextVersionId : Nat) ≠ e.nextVersionId + 1 := by omega
  have hba : (e.nextVersionId + 1 : Nat) ≠ e.nextVersionId := by omega
  obtain ⟨st2, hl2, h2mat, h2ac, h2cur, h2ver, h2next⟩ := switchVersion_inv h2
  rw [h1cur, h1mat, h1ver, lookupA_upsertA_ne hsc, lookupA_upsertA_self] at hl2
  obtain rfl : ([] : EntityState) = st2 := Option.some.inj hl2
  rw [h1cur, h1mat, h1ver] at h2ver
  obtain ⟨st4, hl4, ht, h4ver, h4cur, h4mat, h4next, h4ac⟩ :=
    createVersion_parent_inv h4
  rw [writeKey_current, writeKey_materialized, writeKey_versions, h2cur, h2mat,
    h2ver, lookupA_upsertA_self] at hl4
  obtain rfl : upsertA k (some v) ([] : EntityState) = st4 :=
    Option.some.inj hl4
  rw [writeKey_nextVersionId, h2next] at ht
  rw [h1next] at ht
  subst ht
  rw [writeKey_current, writeKey_materialized, writeKey_versions,
    writeKey_nextVersionId, h2cur, h2mat, h2ver, h2next, h1next] at h4ver
  rw [writeKey_current, h2cur] at h4cur
  rw [writeKey_materialized, h2mat] at h4mat
  rw [writeKey_applyCalls, h2ac] at h4ac
  rw [writeKey_nextVersionId, h2next, h1next] at h4next
  obtain ⟨st5, hl5, h5mat, h5ac, h5cur, h5ver, h5next⟩ := switchVersion_inv h5
  rw [h4cur, h4mat, h4ver, lookupA_upsertA_ne hba, lookupA_upsertA_self] at hl5
  obtain rfl : upsertA k (some v) ([] : EntityState) = st5 :=
    Option.some.inj hl5
  rw [h4cur, h4mat, h4ver] at h5ver
  obtain ⟨st7, hl7, h7mat, h7ac, h7cur, h7ver, h7next⟩ := switchVersion_inv h7
  rw [deleteKey_current, deleteKey_materialized, deleteKey_versions, h5cur,
    h5mat, h5ver, lookupA_upsertA_ne hab, lookupA_upsertA_self] at hl7
  obtain rfl : upsertA k (some v) ([] : EntityState) = st7 :=
    Option.some.inj hl7
  have hd1 : diffCount (upsertA k none (upsertA k (some v) ([] : EntityState)))
      (upsertA k (some v) []) = 1 := by
    refine diffCount_upsert k none _ ?_
    rw [lookupA_upsertA_self]
    simp
  refine ⟨?_, ?_, ?_⟩
  · rw [h5ac, h4mat, diffCount_self]
    omega
  · rw [h7ac, deleteKey_applyCalls, deleteKey_materialized, h5mat, hd1]
  · simp [readKey, h7mat, lookupA]

end Lix

namespace Lix

/-- Witness for C7: writing file0 in fresh version 1, forking version 2,
switching to it (no divergence, zero apply calls), deleting file0 there and
switching back leaves version 1's file0 intact with exactly one apply call. -/
theorem switchVersion_deletion_isolation_witness :
    (⟨[EngineChange.mk 0 "file0" (some "hello world")],
      [(0, []), (1, [("file0", some "hello world")]),
        (2, [("file0", some "hello world")])],
      2, [("file0", some "hello world")], 3, 1, 0⟩ : Engine).applyCalls =
      (⟨[EngineChange.mk 0 "file0" (some "hello world")],
        [(0, []), (1, [("file0", some "hello world")]),
          (2, [("file0", some "hello world")])],
        1, [("file0", some "hello world")], 3, 1, 0⟩ : Engine).applyCalls ∧
    (⟨[EngineChange.mk 0 "file0" (some "hello world"),
        EngineChange.mk 1 "file0" none],
      [(0, []), (1, [("file0", some "hello world")]), (2, [("file0", none)])],
      1, [("file0", some "hello world")], 3, 2, 1⟩ : Engine).applyCalls =
      (⟨[EngineChange.mk 0 "file0" (some "hello world")],
        [(0, []), (1, [("file0", some "hello world")]),
          (2, [("file0", some "hello world")])],
        2, [("file0", some "hello world")], 3, 1, 0⟩ : Engine).applyCalls + 1 ∧
    readKey (⟨[EngineChange.mk 0 "file0" (some "hello world"),
        EngineChange.mk 1 "file0" none],
      [(0, []), (1, [("file0", some "hello world")]), (2, [("file0", none)])],
      1, [("file0", some "hello world")], 3, 2, 1⟩ : Engine) "file0" =
      some "hello world" :=
  switchVersion_deletion_isolation engineW "file0" "hello world" 1 2
    ⟨[], [(0, []), (1, [])], 0, [], 2, 0, 0⟩
    ⟨[], [(0, []), (1, [])], 1, [], 2, 0, 0⟩
    ⟨[EngineChange.mk 0 "file0" (some "hello world")],
      [(0, []), (1, [("file0", some "hello world")]),
        (2, [("file0", some "hello world")])],
      1, [("file0", some "hello world")], 3, 1, 0⟩
    ⟨[EngineChange.mk 0 "file0" (some "hello world")],
      [(0, []), (1, [("file0", some "hello world")]),
        (2, [("file0", some "hello world")])],
      2, [("file0", some "hello world")], 3, 1, 0⟩
    ⟨[EngineChange.mk 0 "file0" (some "hello world"),
        EngineChange.mk 1 "file0" none],
      [(0, []), (1, [("file0", some "hello world")]), (2, [("file0", none)])],
      1, [("file0", some "hello world")], 3, 2, 1⟩
    (by decide) (by decide) (by decide) (by decide) (by decide) (by decide)

end Lix

namespace Lix

/-! ## Constraint-checked graph store (C9)

Modelled from the spec: the `initDb` schema DDL (its CHECK and UNIQUE
constraints) is not under `src/` — only its test.  Spec sections 6 and 7(a):
`change_edge.parent_id != change_edge.child_id`,
`conflict.change_id != conflict.conflicting_change_id`, and
`(change_set_id, change_id)` unique in `change_set_element`; violations are
rejected synchronously as constraint errors (the error messages below are
the ones asserted by `initDb.test.ts`), and a failed insert returns no new
store state. -/

structure GraphStore where
  edges : List (String × String)
  conflicts : List (String × String)
  changeSetElements : List (String × String)
deriving DecidableEq, Repr

def insertChangeEdge (s : GraphStore) (parentId childId : String) :
    Except String GraphStore :=
  if parentId = childId then
    Except.error "CHECK constraint failed: parent_id != child_id"
  else
    Except.ok { s with edges := s.edges ++ [(parentId, childId)] }

def insertConflict (s : GraphStore) (changeId conflictingChangeId : String) :
    Except String GraphStore :=
  if changeId = conflictingChangeId then
    Except.error "CHECK constraint failed: change_id != conflicting_change_id"
  else
    Except.ok
      { s with conflicts := s.conflicts ++ [(changeId, conflictingChangeId)] }

def insertChangeSetElement (s : GraphStore) (changeSetId changeId : String) :
    Except String GraphStore :=
  if (changeSetId, changeId) ∈ s.changeSetElements then
    Except.error
      "UNIQUE constraint failed: change_set_element.change_set_id, change_set_element.change_id"
  else
    Except.ok
      { s with changeSetElements :=
          s.changeSetElements ++ [(changeSetId, changeId)] }

/-- C9: self-referencing edges and conflicts are rejected synchronously with
the CHECK constraint error, and re-inserting a (change_set_id, change_id)
pair that a successful insert just added fails with the UNIQUE constraint
error; a failed insert yields an error and no successor store state. -/
theorem insert_constraint_violations (s s1 : GraphStore) (c cs ch : String)
    (hok : insertChangeSetElement s cs ch = Except.ok s1) :
    insertChangeEdge s c c =
      Except.error "CHECK constraint failed: parent_id != child_id" ∧
    insertConflict s c c =
      Except.error "CHECK constraint failed: change_id != conflicting_change_id" ∧
    insertChangeSetElement s1 cs ch =
      Except.error
        "UNIQUE constraint failed: change_set_element.change_set_id, change_set_element.change_id" := by
  refine ⟨by simp [insertChangeEdge], by simp [insertConflict], ?_⟩
  unfold insertChangeSetElement at hok ⊢
  by_cases h : (cs, ch) ∈ s.changeSetElements
  · simp [h] at hok
  · rw [if_neg h] at hok
    have hs1 := Except.ok.inj hok
    rw [← hs1]
    simp

/-- Witness for C9 on the empty store with the ids of the source test. -/
theorem insert_constraint_violations_witness :
    insertChangeEdge ⟨[], [], []⟩ "change1" "change1" =
      Except.error "CHECK constraint failed: parent_id != child_id" ∧
    insertConflict ⟨[], [], []⟩ "change1" "change1" =
      Except.error "CHECK constraint failed: change_id != conflicting_change_id" ∧
    insertChangeSetElement ⟨[], [], [("change-set-1", "change-1")]⟩
      "change-set-1" "change-1" =
      Except.error
        "UNIQUE constraint failed: change_set_element.change_set_id, change_set_element.change_id" :=
  insert_constraint_violations ⟨[], [], []⟩
    ⟨[], [], [("change-set-1", "change-1")]⟩ "change1" "change-set-1" "change-1"
    (by rfl)

end Lix
